import Mathlib

/-!
Verification of the note-app backend (SQLite store behind an RPC handler
set) and the sidebar rendering logic, as a shallow embedding.

Strings are modelled as Lean strings (lists of characters); SQLite
timestamps (text from datetime, second granularity) are modelled as
natural-number clock values supplied to each mutating operation.
-/

namespace NoteApp

/-- A row of the `notes` table. -/
structure Note where
  id : Nat
  title : String
  content : String
  created_at : Nat
  updated_at : Nat
deriving Repr, DecidableEq

/-- The persistent store: the table rows in rowid (insertion) order plus the
AUTOINCREMENT counter, which never decreases and is never reused. -/
structure Store where
  notes : List Note
  nextId : Nat
deriving Repr, DecidableEq

/-- A fresh database: empty table, AUTOINCREMENT starts at 1. -/
def emptyStore : Store := { notes := [], nextId := 1 }

/-- Ids of the rows currently stored. -/
def idsOf (s : Store) : List Nat := s.notes.map Note.id

/-- Descending order on creation time, the relation behind
`ORDER BY created_at DESC`. -/
def createdDesc (a b : Note) : Prop := b.created_at ≤ a.created_at

/-- Descending order on update time, the relation behind
`ORDER BY updated_at DESC`. -/
def updatedDesc (a b : Note) : Prop := b.updated_at ≤ a.updated_at

instance : DecidableRel createdDesc := fun a b => Nat.decLe b.created_at a.created_at

instance : DecidableRel updatedDesc := fun a b => Nat.decLe b.updated_at a.updated_at

instance : IsTotal Note createdDesc :=
  ⟨fun x y => (Nat.le_total y.created_at x.created_at).imp id id⟩

instance : IsTrans Note createdDesc :=
  ⟨fun _ _ _ h1 h2 => Nat.le_trans h2 h1⟩

instance : IsTotal Note updatedDesc :=
  ⟨fun a b => (Nat.le_total b.updated_at a.updated_at).imp id id⟩

instance : IsTrans Note updatedDesc :=
  ⟨fun _ _ _ h1 h2 => Nat.le_trans h2 h1⟩

/-- `SELECT * FROM notes ORDER BY created_at DESC` (prepared `getAllNotes`). -/
def getAllNotes (s : Store) : List Note := s.notes.insertionSort createdDesc

/-- `SELECT * FROM notes WHERE id = ?` read with `.get` (prepared
`getNoteById`): the first matching row, if any. -/
def getNoteById (s : Store) (i : Nat) : Option Note :=
  s.notes.find? (fun n => n.id == i)

/-- `INSERT INTO notes (title, content) VALUES (?, ?) RETURNING *`
(prepared `insertNote`), at clock value `t`: assigns the AUTOINCREMENT id
and sets both timestamps to the current time. -/
def insertNote (s : Store) (title content : String) (t : Nat) : Note × Store :=
  let n : Note :=
    { id := s.nextId, title := title, content := content
      created_at := t, updated_at := t }
  (n, { notes := s.notes ++ [n], nextId := s.nextId + 1 })

/-- `UPDATE notes SET title = ?, content = ?, updated_at = datetime(..)
WHERE id = ? RETURNING *` read with `.get` (prepared `updateNote`), at
clock value `t`: rewrites every row whose id matches and returns the first
such row, or `none` when no row matched. -/
def updateNote (s : Store) (i : Nat) (title content : String) (t : Nat) :
    Option Note × Store :=
  let notes2 := s.notes.map (fun n =>
    if n.id == i then
      { n with title := title, content := content, updated_at := t }
    else n)
  (notes2.find? (fun n => n.id == i), { s with notes := notes2 })

/-- `DELETE FROM notes WHERE id = ?` (prepared `deleteNote`). -/
def deleteNote (s : Store) (i : Nat) : Store :=
  { s with notes := s.notes.filter (fun n => !(n.id == i)) }

/-- `SELECT COUNT(*) as total FROM notes` (prepared `getStats`). -/
def getStats (s : Store) : Nat := s.notes.length

/-- The `deleteNote` request handler: runs the delete and unconditionally
answers `success := true`. -/
def deleteNoteReq (s : Store) (i : Nat) : Bool × Store :=
  (true, deleteNote s i)

/-- The `getStats` request handler: `{ total := .. }`. -/
def getStatsReq (s : Store) : Nat := getStats s

/-- Freshness of the AUTOINCREMENT counter: every stored id is below it.
Holds in every state the backend can reach (proved below). -/
def FreshIds (s : Store) : Prop := ∀ n ∈ s.notes, n.id < s.nextId

lemma find?_eq_none_of_lt {s : Store} (h : FreshIds s) :
    s.notes.find? (fun n => n.id == s.nextId) = none := by
  rw [List.find?_eq_none]
  intro n hn
  have := h n hn
  simp only [beq_iff_eq]
  omega

/-- C1: Round-trip create: inserting `(T, C)` and fetching the assigned id
returns a note with title `T`, content `C`, and `created_at` equal to
`updated_at` (both set to the insertion clock, hence non-null). -/
theorem insert_roundtrip (s : Store) (ti co : String) (t : Nat)
    (h : FreshIds s) :
    getNoteById (insertNote s ti co t).2 (insertNote s ti co t).1.id =
      some (insertNote s ti co t).1 ∧
    (insertNote s ti co t).1.title = ti ∧
    (insertNote s ti co t).1.content = co ∧
    (insertNote s ti co t).1.created_at = t ∧
    (insertNote s ti co t).1.updated_at = t := by
  refine ⟨?_, rfl, rfl, rfl, rfl⟩
  unfold getNoteById insertNote
  simp only [List.find?_append, find?_eq_none_of_lt h, Option.none_or]
  simp [List.find?]

/-- C1 witness: inserting into the fresh store and reading back. -/
theorem insert_roundtrip_witness :
    FreshIds emptyStore ∧
    (getNoteById (insertNote emptyStore "T" "C" 5).2
        (insertNote emptyStore "T" "C" 5).1.id =
      some (insertNote emptyStore "T" "C" 5).1 ∧
    (insertNote emptyStore "T" "C" 5).1.title = "T" ∧
    (insertNote emptyStore "T" "C" 5).1.content = "C" ∧
    (insertNote emptyStore "T" "C" 5).1.created_at = 5 ∧
    (insertNote emptyStore "T" "C" 5).1.updated_at = 5) :=
  ⟨by intro n hn; simp [emptyStore] at hn,
   insert_roundtrip emptyStore "T" "C" 5
     (by intro n hn; simp [emptyStore] at hn)⟩

lemma map_id_of_no_match {i : Nat} {ti co : String} {t : Nat}
    {l : List Note} (h : ∀ n ∈ l, n.id ≠ i) :
    l.map (fun n =>
      if n.id == i then
        { n with title := ti, content := co, updated_at := t }
      else n) = l := by
  induction l with
  | nil => rfl
  | cons a l ih =>
    have ha : ¬((a.id == i) = true) := by
      simp only [beq_iff_eq]
      exact h a (by simp)
    rw [List.map_cons, if_neg ha, ih (fun n hn => h n (by simp [hn]))]

/-- C6: updating an id not present in the store yields no row and leaves
the store entirely unchanged. -/
theorem update_missing (s : Store) (i : Nat) (ti co : String) (t : Nat)
    (h : i ∉ idsOf s) :
    (updateNote s i ti co t).1 = none ∧ (updateNote s i ti co t).2 = s := by
  have hne : ∀ n ∈ s.notes, n.id ≠ i := by
    intro n hn hcontra
    exact h (by simp [idsOf]; exact ⟨n, hn, hcontra⟩)
  unfold updateNote
  rw [map_id_of_no_match hne]
  constructor
  · rw [List.find?_eq_none]
    intro n hn
    simp only [beq_iff_eq]
    exact hne n hn
  · rfl

/-- C6 witness: updating id 42 in the empty store. -/
theorem update_missing_witness :
    (42 : Nat) ∉ idsOf emptyStore ∧
    ((updateNote emptyStore 42 "x" "y" 7).1 = none ∧
      (updateNote emptyStore 42 "x" "y" 7).2 = emptyStore) :=
  ⟨by simp [idsOf, emptyStore],
   update_missing emptyStore 42 "x" "y" 7 (by simp [idsOf, emptyStore])⟩

lemma filter_id_of_no_match {i : Nat} {l : List Note}
    (h : ∀ n ∈ l, n.id ≠ i) :
    l.filter (fun n => !(n.id == i)) = l := by
  induction l with
  | nil => rfl
  | cons a l ih =>
    have ha : (!(a.id == i)) = true := by
      simp only [Bool.not_eq_true', beq_eq_false_iff_ne, ne_eq]
      exact h a (by simp)
    rw [List.filter_cons, if_pos ha, ih (fun n hn => h n (by simp [hn]))]

lemma length_filter_out_of_mem {i : Nat} {l : List Note}
    (hnd : (l.map Note.id).Nodup) (hmem : i ∈ l.map Note.id) :
    (l.filter (fun n => !(n.id == i))).length + 1 = l.length := by
  induction l with
  | nil => simp at hmem
  | cons a l ih =>
    simp only [List.map_cons, List.nodup_cons] at hnd
    by_cases ha : a.id = i
    · have hnone : ∀ n ∈ l, n.id ≠ i := by
        intro n hn hcontra
        exact hnd.1 (ha ▸ hcontra ▸ List.mem_map_of_mem Note.id hn)
      have hfa : ¬((!(a.id == i)) = true) := by simp [ha]
      rw [List.filter_cons, if_neg hfa, filter_id_of_no_match hnone]
      simp
    · have hmem2 : i ∈ l.map Note.id := by
        simp only [List.map_cons, List.mem_cons] at hmem
        exact hmem.resolve_left (fun hh => ha hh.symm)
      have hta : (!(a.id == i)) = true := by simp [ha]
      rw [List.filter_cons, if_pos hta]
      simp only [List.length_cons]
      rw [← ih hnd.2 hmem2]

/-- C3: the delete request always answers `success = true`; deleting an
absent id leaves the table (hence the count) unchanged; deleting a present
id removes it, shrinks the count by exactly one, and a subsequent fetch by
that id is absent. -/
theorem delete_semantics (s : Store) (i : Nat) (hnd : (idsOf s).Nodup) :
    (deleteNoteReq s i).1 = true ∧
    (i ∉ idsOf s → (deleteNoteReq s i).2 = s) ∧
    (i ∈ idsOf s →
      getStats (deleteNoteReq s i).2 + 1 = getStats s ∧
      getNoteById (deleteNoteReq s i).2 i = none) := by
  refine ⟨rfl, ?_, ?_⟩
  · intro habs
    have hne : ∀ n ∈ s.notes, n.id ≠ i := by
      intro n hn hcontra
      exact habs (by simpa [idsOf, hcontra] using List.mem_map_of_mem Note.id hn)
    show ({ s with notes := s.notes.filter (fun n => !(n.id == i)) } : Store) = s
    rw [filter_id_of_no_match hne]
  · intro hmem
    constructor
    · exact length_filter_out_of_mem hnd hmem
    · rw [getNoteById, List.find?_eq_none]
      intro n hn
      have := List.of_mem_filter hn
      simp only [Bool.not_eq_true', beq_eq_false_iff_ne, ne_eq] at this
      simp only [beq_iff_eq]
      exact this

/-- A concrete one-note store used to exercise the delete path. -/
def demoDelNote : Note :=
  { id := 1, title := "a", content := "", created_at := 0, updated_at := 0 }

/-- A concrete store holding `demoDelNote`. -/
def demoDelStore : Store := { notes := [demoDelNote], nextId := 2 }

/-- C3 witness: deleting the present id 1 from the one-note store. -/
theorem delete_semantics_witness :
    (idsOf demoDelStore).Nodup ∧
    ((1 : Nat) ∈ idsOf demoDelStore →
      getStats (deleteNoteReq demoDelStore 1).2 + 1 = getStats demoDelStore ∧
      getNoteById (deleteNoteReq demoDelStore 1).2 1 = none) :=
  ⟨by decide, (delete_semantics demoDelStore 1 (by decide)).2.2⟩

lemma nodup_split {l1 l2 : List Note} {n : Note}
    (hnd : ((l1 ++ n :: l2).map Note.id).Nodup) :
    (∀ m ∈ l1, m.id ≠ n.id) ∧ (∀ m ∈ l2, m.id ≠ n.id) := by
  rw [List.map_append, List.map_cons, List.nodup_append] at hnd
  obtain ⟨-, hcons, hdisj⟩ := hnd
  rw [List.nodup_cons] at hcons
  constructor
  · intro m hm hcontra
    exact hdisj (List.mem_map_of_mem Note.id hm) (by simp [hcontra])
  · intro m hm hcontra
    exact hcons.1 (hcontra ▸ List.mem_map_of_mem Note.id hm)

/-- C2: updating an existing note replaces title and content wholesale,
refreshes `updated_at` to the (non-decreasing) clock, keeps `created_at`
and `id`, returns the full updated row, and leaves every other note, the
surrounding order, and the id counter untouched. -/
theorem update_frame (s : Store) (n : Note) (ti co : String) (t : Nat)
    (hmem : n ∈ s.notes) (hnd : (idsOf s).Nodup) (ht : n.updated_at ≤ t) :
    (updateNote s n.id ti co t).1 =
      some { id := n.id, title := ti, content := co,
             created_at := n.created_at, updated_at := t } ∧
    n.updated_at ≤ t ∧
    (updateNote s n.id ti co t).2.nextId = s.nextId ∧
    ∃ l1 l2, s.notes = l1 ++ n :: l2 ∧
      (updateNote s n.id ti co t).2.notes =
        l1 ++ { id := n.id, title := ti, content := co,
                created_at := n.created_at, updated_at := t } :: l2 := by
  obtain ⟨l1, l2, hsplit⟩ := List.append_of_mem hmem
  have hnd2 : ((l1 ++ n :: l2).map Note.id).Nodup := by rwa [idsOf, hsplit] at hnd
  obtain ⟨h1, h2⟩ := nodup_split hnd2
  have hmap : (updateNote s n.id ti co t).2.notes =
      l1 ++ { id := n.id, title := ti, content := co,
              created_at := n.created_at, updated_at := t } :: l2 := by
    show (s.notes.map _) = _
    rw [hsplit, List.map_append, List.map_cons,
      map_id_of_no_match h1, map_id_of_no_match h2]
    simp
  refine ⟨?_, ht, rfl, l1, l2, hsplit, hmap⟩
  show ((s.notes.map _).find? _) = _
  have : (s.notes.map (fun n2 =>
      if n2.id == n.id then
        { n2 with title := ti, content := co, updated_at := t }
      else n2)) =
      l1 ++ { id := n.id, title := ti, content := co,
              created_at := n.created_at, updated_at := t } :: l2 := hmap
  rw [this, List.find?_append]
  have hnone : l1.find? (fun m => m.id == n.id) = none := by
    rw [List.find?_eq_none]
    intro m hm
    simp only [beq_iff_eq]
    exact h1 m hm
  rw [hnone]
  simp [List.find?]

/-- A concrete note used to exercise the update path. -/
def demoUpdNote : Note :=
  { id := 1, title := "a", content := "b", created_at := 3, updated_at := 4 }

/-- A concrete store holding `demoUpdNote`. -/
def demoUpdStore : Store := { notes := [demoUpdNote], nextId := 2 }

/-- C2 witness: updating the sole note of a one-note store. -/
theorem update_frame_witness :
    demoUpdNote ∈ demoUpdStore.notes ∧
    (idsOf demoUpdStore).Nodup ∧
    demoUpdNote.updated_at ≤ 9 ∧
    (updateNote demoUpdStore demoUpdNote.id "x" "y" 9).1 =
      some { id := demoUpdNote.id, title := "x", content := "y",
             created_at := demoUpdNote.created_at, updated_at := 9 } :=
  ⟨by decide, by decide, by decide,
   (update_frame demoUpdStore demoUpdNote "x" "y" 9
     (by decide) (by decide) (by decide)).1⟩

/-- C4: the list-all result is the stored rows ordered by creation time
descending; in particular three successive creations into a fresh store
(at strictly increasing clock values) come back newest-created first. -/
theorem list_order :
    (∀ s : Store, (getAllNotes s).Perm s.notes ∧
      List.Sorted createdDesc (getAllNotes s)) ∧
    (∀ (tA cA tB cB tC cC : String) (t1 t2 t3 : Nat), t1 < t2 → t2 < t3 →
      getAllNotes
          (insertNote (insertNote (insertNote emptyStore tA cA t1).2
            tB cB t2).2 tC cC t3).2 =
        [(insertNote (insertNote (insertNote emptyStore tA cA t1).2
            tB cB t2).2 tC cC t3).1,
         (insertNote (insertNote emptyStore tA cA t1).2 tB cB t2).1,
         (insertNote emptyStore tA cA t1).1]) := by
  constructor
  · intro s
    exact ⟨List.perm_insertionSort createdDesc s.notes,
      List.sorted_insertionSort createdDesc s.notes⟩
  · intro tA cA tB cB tC cC t1 t2 t3 h12 h23
    have hBC : ¬ createdDesc
        { id := 2, title := tB, content := cB, created_at := t2,
          updated_at := t2 }
        { id := 3, title := tC, content := cC, created_at := t3,
          updated_at := t3 } := by
      simp only [createdDesc]
      omega
    have hAC : ¬ createdDesc
        { id := 1, title := tA, content := cA, created_at := t1,
          updated_at := t1 }
        { id := 3, title := tC, content := cC, created_at := t3,
          updated_at := t3 } := by
      simp only [createdDesc]
      omega
    have hAB : ¬ createdDesc
        { id := 1, title := tA, content := cA, created_at := t1,
          updated_at := t1 }
        { id := 2, title := tB, content := cB, created_at := t2,
          updated_at := t2 } := by
      simp only [createdDesc]
      omega
    show List.insertionSort createdDesc
        [{ id := 1, title := tA, content := cA, created_at := t1,
           updated_at := t1 },
         { id := 2, title := tB, content := cB, created_at := t2,
           updated_at := t2 },
         { id := 3, title := tC, content := cC, created_at := t3,
           updated_at := t3 }] = _
    simp only [List.insertionSort, List.orderedInsert]
    rw [if_neg hBC]
    simp only [List.orderedInsert]
    rw [if_neg hAC, if_neg hAB]
    rfl

/-- C4 witness: three creations at clocks 1 < 2 < 3. -/
theorem list_order_witness :
    (1 : Nat) < 2 ∧ (2 : Nat) < 3 ∧
    getAllNotes
        (insertNote (insertNote (insertNote emptyStore "A" "" 1).2
          "B" "" 2).2 "C" "" 3).2 =
      [(insertNote (insertNote (insertNote emptyStore "A" "" 1).2
          "B" "" 2).2 "C" "" 3).1,
       (insertNote (insertNote emptyStore "A" "" 1).2 "B" "" 2).1,
       (insertNote emptyStore "A" "" 1).1] :=
  ⟨by decide, by decide,
   list_order.2 "A" "" "B" "" "C" "" 1 2 3 (by decide) (by decide)⟩

/-- A batch of `addNote` requests, applied in order; each triple is
(title, content, clock value). -/
def insertMany (s : Store) : List (String × String × Nat) → Store
  | [] => s
  | (ti, co, t) :: rest => insertMany (insertNote s ti co t).2 rest

/-- A batch of `deleteNote` requests, applied in order. -/
def deleteMany (s : Store) : List Nat → Store
  | [] => s
  | i :: rest => deleteMany (deleteNote s i) rest

lemma insertMany_length :
    ∀ (items : List (String × String × Nat)) (s : Store),
      (insertMany s items).notes.length = s.notes.length + items.length := by
  intro items
  induction items with
  | nil => intro s; simp [insertMany]
  | cons a rest ih =>
    intro s
    obtain ⟨ti, co, t⟩ := a
    show (insertMany (insertNote s ti co t).2 rest).notes.length = _
    rw [ih]
    simp [insertNote]
    omega

lemma insert_preserves (s : Store) (ti co : String) (t : Nat)
    (h1 : FreshIds s) (h2 : (idsOf s).Nodup) :
    FreshIds (insertNote s ti co t).2 ∧
      (idsOf (insertNote s ti co t).2).Nodup := by
  constructor
  · intro n hn
    simp only [insertNote, List.mem_append, List.mem_singleton] at hn
    rcases hn with hn | hn
    · exact Nat.lt_succ_of_lt (h1 n hn)
    · subst hn; exact Nat.lt_succ_self _
  · show ((s.notes ++ [_]).map Note.id).Nodup
    rw [List.map_append]
    rw [List.nodup_append]
    refine ⟨h2, by simp, ?_⟩
    intro a ha hb
    simp only [List.map_cons, List.map_nil, List.mem_singleton] at hb
    subst hb
    simp only [idsOf, List.mem_map] at ha
    obtain ⟨n, hn, hid⟩ := ha
    exact absurd hid (Nat.ne_of_lt (h1 n hn))

lemma insertMany_preserves :
    ∀ (items : List (String × String × Nat)) (s : Store),
      FreshIds s → (idsOf s).Nodup →
      FreshIds (insertMany s items) ∧ (idsOf (insertMany s items)).Nodup := by
  intro items
  induction items with
  | nil => intro s h1 h2; exact ⟨h1, h2⟩
  | cons a rest ih =>
    intro s h1 h2
    obtain ⟨ti, co, t⟩ := a
    obtain ⟨h1b, h2b⟩ := insert_preserves s ti co t h1 h2
    exact ih _ h1b h2b

lemma idsOf_delete_sublist (s : Store) (i : Nat) :
    (idsOf (deleteNote s i)).Sublist (idsOf s) :=
  (List.filter_sublist s.notes).map Note.id

lemma mem_idsOf_delete {s : Store} {i j : Nat}
    (hj : j ∈ idsOf s) (hne : j ≠ i) : j ∈ idsOf (deleteNote s i) := by
  simp only [idsOf, List.mem_map] at hj
  obtain ⟨n, hn, hid⟩ := hj
  have : n ∈ (deleteNote s i).notes := by
    apply List.mem_filter.2
    refine ⟨hn, ?_⟩
    simp only [Bool.not_eq_true', beq_eq_false_iff_ne, ne_eq]
    exact fun hcontra => hne (hid ▸ hcontra ▸ rfl)
  exact hid ▸ List.mem_map_of_mem Note.id this

lemma deleteMany_length :
    ∀ (dels : List Nat) (s : Store), dels.Nodup → (idsOf s).Nodup →
      (∀ i ∈ dels, i ∈ idsOf s) →
      (deleteMany s dels).notes.length + dels.length = s.notes.length := by
  intro dels
  induction dels with
  | nil => intro s _ _ _; simp [deleteMany]
  | cons i rest ih =>
    intro s hnd hsnd hmem
    rw [List.nodup_cons] at hnd
    have hstep : (deleteNote s i).notes.length + 1 = s.notes.length :=
      length_filter_out_of_mem hsnd (hmem i (by simp))
    have hrec := ih (deleteNote s i) hnd.2
      ((idsOf_delete_sublist s i).nodup hsnd)
      (fun j hj => mem_idsOf_delete (hmem j (by simp [hj]))
        (fun hcontra => hnd.1 (hcontra ▸ hj)))
    show (deleteMany (deleteNote s i) rest).notes.length + _ = _
    simp only [List.length_cons]
    omega

/-- C8: the stats request always reports the number of rows currently
stored; creating `n` notes in a fresh store and then deleting `m` of them
(each a distinct, existing id) leaves total `n - m`. -/
theorem stats_total (items : List (String × String × Nat)) (dels : List Nat)
    (hnd : dels.Nodup)
    (hmem : ∀ i ∈ dels, i ∈ idsOf (insertMany emptyStore items)) :
    (∀ s : Store, getStatsReq s = s.notes.length) ∧
    getStatsReq (deleteMany (insertMany emptyStore items) dels) =
      items.length - dels.length := by
  refine ⟨fun s => rfl, ?_⟩
  have hempty1 : FreshIds emptyStore := by
    intro n hn; simp [emptyStore] at hn
  have hempty2 : (idsOf emptyStore).Nodup := by simp [idsOf, emptyStore]
  obtain ⟨-, hnd2⟩ := insertMany_preserves items emptyStore hempty1 hempty2
  have hdel := deleteMany_length dels (insertMany emptyStore items)
    hnd hnd2 hmem
  have hins : (insertMany emptyStore items).notes.length = items.length := by
    rw [insertMany_length items emptyStore]
    simp [emptyStore]
  show (deleteMany (insertMany emptyStore items) dels).notes.length = _
  omega

/-- C8 witness: create two notes, delete one of them. -/
theorem stats_total_witness :
    ([1] : List Nat).Nodup ∧
    (∀ i ∈ ([1] : List Nat),
      i ∈ idsOf (insertMany emptyStore [("a", "", 1), ("b", "", 2)])) ∧
    getStatsReq (deleteMany
        (insertMany emptyStore [("a", "", 1), ("b", "", 2)]) [1]) = 1 :=
  ⟨by decide, by decide,
   (stats_total [("a", "", 1), ("b", "", 2)] [1]
     (by decide) (by decide)).2⟩

/-- ASCII lower-casing, the folding SQLite applies in its default `LIKE`. -/
def lowerChar (c : Char) : Char :=
  if 'A' ≤ c ∧ c ≤ 'Z' then Char.ofNat (c.toNat + 32) else c

/-- Lower-case every character of a (list-of-characters) string. -/
def lowerStr (l : List Char) : List Char := l.map lowerChar

/-- Fuel-bounded `LIKE` pattern matcher: `%` matches any run of
characters, `_` any single character, anything else itself up to ASCII
case folding. Every recursive call shrinks pattern-plus-text, so
`pattern.length + text.length + 1` fuel always suffices. -/
def likeMatchF : Nat → List Char → List Char → Bool
  | 0, _, _ => false
  | _ + 1, [], s => s.isEmpty
  | fuel + 1, c :: p, s =>
    if c = '%' then
      likeMatchF fuel p s ||
        (match s with
         | [] => false
         | _ :: s2 => likeMatchF fuel (c :: p) s2)
    else if c = '_' then
      match s with
      | [] => false
      | _ :: s2 => likeMatchF fuel p s2
    else
      match s with
      | [] => false
      | d :: s2 => (lowerChar c == lowerChar d) && likeMatchF fuel p s2

/-- SQLite `text LIKE pattern` with the default semantics. -/
def likeMatch (p s : String) : Bool :=
  likeMatchF (p.data.length + s.data.length + 1) p.data s.data

/-- Does `q` start the string `s` (character-wise equality)? -/
def startsWithB : List Char → List Char → Bool
  | [], _ => true
  | _ :: _, [] => false
  | c :: q, d :: s => c == d && startsWithB q s

/-- Does `q` occur somewhere inside `s` as a contiguous substring? -/
def containsSub (q : List Char) : List Char → Bool
  | [] => startsWithB q []
  | d :: s2 => startsWithB q (d :: s2) || containsSub q s2

/-- No `LIKE` metacharacter occurs in the query. -/
def noWildB (q : List Char) : Bool :=
  q.all (fun c => !(c == '%') && !(c == '_'))

lemma likeMatchF_nil (f : Nat) (s : List Char) (hf : 0 < f) :
    likeMatchF f [] s = s.isEmpty := by
  cases f with
  | zero => omega
  | succ f => rfl

lemma likeMatchF_wild (s : List Char) :
    ∀ f : Nat, s.length + 1 < f → likeMatchF f ['%'] s = true := by
  induction s with
  | nil =>
    intro f hf
    cases f with
    | zero => omega
    | succ f =>
      simp only [likeMatchF]
      rw [likeMatchF_nil f [] (by omega)]
      rfl
  | cons d s ih =>
    intro f hf
    cases f with
    | zero => omega
    | succ f =>
      simp only [likeMatchF, List.length_cons] at hf ⊢
      rw [likeMatchF_nil f (d :: s) (by omega), ih f (by omega)]
      simp

lemma likeMatchF_tail (q : List Char) (hq : noWildB q = true) :
    ∀ (s : List Char) (f : Nat), q.length + s.length + 1 < f →
      likeMatchF f (q ++ ['%']) s = startsWithB (lowerStr q) (lowerStr s) := by
  induction q with
  | nil =>
    intro s f hf
    rw [List.nil_append, likeMatchF_wild s f (by simpa using hf)]
    rfl
  | cons c q ih =>
    simp only [noWildB, List.all_cons, Bool.and_eq_true, Bool.not_eq_true',
      beq_eq_false_iff_ne, ne_eq] at hq
    obtain ⟨⟨hc1, hc2⟩, hq2⟩ := hq
    intro s f hf
    cases f with
    | zero => omega
    | succ f =>
      rw [List.cons_append]
      simp only [likeMatchF, if_neg hc1, if_neg hc2]
      cases s with
      | nil => rfl
      | cons d s2 =>
        have ihs := ih hq2 s2 f (by
          simp only [List.length_cons] at hf ⊢
          omega)
        simp only [lowerStr, List.map_cons, startsWithB] at ihs ⊢
        rw [ihs]

lemma likeMatchF_wrap (q : List Char) (hq : noWildB q = true) :
    ∀ (s : List Char) (f : Nat), q.length + s.length + 2 < f →
      likeMatchF f ('%' :: (q ++ ['%'])) s =
        containsSub (lowerStr q) (lowerStr s) := by
  intro s
  induction s with
  | nil =>
    intro f hf
    cases f with
    | zero => omega
    | succ f =>
      simp only [likeMatchF, if_pos rfl]
      rw [likeMatchF_tail q hq [] f (by
        simp only [List.length_nil] at hf ⊢
        omega)]
      simp [containsSub, lowerStr]
  | cons d s2 ih =>
    intro f hf
    cases f with
    | zero => omega
    | succ f =>
      simp only [likeMatchF, if_pos rfl]
      rw [likeMatchF_tail q hq (d :: s2) f (by
            simp only [List.length_cons] at hf ⊢
            omega),
          ih f (by
            simp only [List.length_cons] at hf ⊢
            omega)]
      simp [containsSub, lowerStr]

lemma likeMatch_wrap (q s : String) (hq : noWildB q.data = true) :
    likeMatch ("%" ++ q ++ "%") s =
      containsSub (lowerStr q.data) (lowerStr s.data) := by
  unfold likeMatch
  have hdata : ("%" ++ q ++ "%").data = '%' :: (q.data ++ ['%']) := by
    rw [String.data_append, String.data_append]
    rfl
  rw [hdata]
  apply likeMatchF_wrap q.data hq s.data
  simp only [List.length_cons, List.length_append, List.length_nil]
  omega

/-- The pattern the `searchNotes` handler builds: `"%" + query + "%"`. -/
def wrapQuery (q : String) : String := "%" ++ q ++ "%"

/-- Row predicate of `searchNotesStmt`: `title LIKE ? OR content LIKE ?`,
both parameters bound to the wrapped query. -/
def rowMatches (q : String) (n : Note) : Bool :=
  likeMatch (wrapQuery q) n.title || likeMatch (wrapQuery q) n.content

/-- The `searchNotes` handler: `SELECT * FROM notes WHERE title LIKE ?
OR content LIKE ? ORDER BY updated_at DESC`. -/
def searchNotesReq (s : Store) (q : String) : List Note :=
  (s.notes.filter (rowMatches q)).insertionSort updatedDesc

/-- The spec's search predicate: the query occurs as a case-insensitive
substring of the title or of the content. -/
def specMatches (q : String) (n : Note) : Bool :=
  containsSub (lowerStr q.data) (lowerStr n.title.data) ||
  containsSub (lowerStr q.data) (lowerStr n.content.data)

/-- A note whose title contains no underscore. -/
def demoSearchNote : Note :=
  { id := 1, title := "axb", content := "", created_at := 0, updated_at := 0 }

/-- A one-note store for exercising the search path. -/
def demoSearchStore : Store := { notes := [demoSearchNote], nextId := 2 }

/-- C5 counterexample: the query `"a_b"` is not a substring of the title
`"axb"`, yet the search returns that note, because the underscore acts as
a `LIKE` single-character wildcard inside the `%`-wrapped pattern. -/
theorem search_counterexample :
    searchNotesReq demoSearchStore "a_b" = [demoSearchNote] ∧
    specMatches "a_b" demoSearchNote = false := by
  constructor
  · rfl
  · rfl

/-- C5 (amended): for a query with no `LIKE` metacharacter (`%` or `_`),
the search returns exactly the stored notes whose title or content
contains the query as a case-insensitive substring — each matching row
once — ordered by `updated_at` descending; if nothing matches, the result
is empty. -/
theorem search_substring (s : Store) (q : String)
    (hq : noWildB q.data = true) :
    (searchNotesReq s q).Perm (s.notes.filter (specMatches q)) ∧
    List.Sorted updatedDesc (searchNotesReq s q) ∧
    ((∀ n ∈ s.notes, specMatches q n = false) → searchNotesReq s q = []) := by
  have hfilter : s.notes.filter (rowMatches q) =
      s.notes.filter (specMatches q) := by
    apply List.filter_congr
    intro n _
    unfold rowMatches specMatches wrapQuery
    rw [likeMatch_wrap q n.title hq, likeMatch_wrap q n.content hq]
  refine ⟨?_, List.sorted_insertionSort updatedDesc _, ?_⟩
  · unfold searchNotesReq
    rw [hfilter]
    exact List.perm_insertionSort updatedDesc _
  · intro hnone
    unfold searchNotesReq
    rw [hfilter]
    have hnil : s.notes.filter (specMatches q) = [] := by
      rw [List.filter_eq_nil_iff]
      intro n hn
      simp [hnone n hn]
    rw [hnil]
    rfl

/-- The spec's own search example: two notes, one matching by title, one
by (differently-cased) content. -/
def demoGroceryStore : Store :=
  { notes :=
      [{ id := 1, title := "Grocery List", content := "milk",
         created_at := 0, updated_at := 0 },
       { id := 2, title := "Todo", content := "buy GROCERIES",
         created_at := 1, updated_at := 1 }],
    nextId := 3 }

/-- C5 witness: searching `"grocer"` over the spec's example store. -/
theorem search_substring_witness :
    noWildB ("grocer" : String).data = true ∧
    (searchNotesReq demoGroceryStore "grocer").Perm
      (demoGroceryStore.notes.filter (specMatches "grocer")) :=
  ⟨by decide, (search_substring demoGroceryStore "grocer" (by decide)).1⟩

/-- One request as received by the backend handler set; the mutating
requests carry the wall-clock value SQLite reads at execution. -/
inductive Op where
  | listAll : Op
  | insert (title content : String) (t : Nat) : Op
  | update (i : Nat) (title content : String) (t : Nat) : Op
  | delete (i : Nat) : Op
  | countAll : Op
  | search (q : String) : Op

/-- Effect of one request on the store (read-only requests leave it). -/
def applyOp (s : Store) : Op → Store
  | .listAll => s
  | .insert ti co t => (insertNote s ti co t).2
  | .update i ti co t => (updateNote s i ti co t).2
  | .delete i => deleteNote s i
  | .countAll => s
  | .search _ => s

/-- Run a request sequence left to right. -/
def runOps (s : Store) : List Op → Store
  | [] => s
  | op :: ops => runOps (applyOp s op) ops

/-- The clock value a request observes, when it observes one. -/
def opTime : Op → Option Nat
  | .insert _ _ t => some t
  | .update _ _ _ t => some t
  | _ => none

/-- The wall clock never runs backwards along the trace: each observed
clock value is at least the previous one (starting from `c`). -/
def validFromB (c : Nat) : List Op → Bool
  | [] => true
  | op :: ops =>
    match opTime op with
    | none => validFromB c ops
    | some t => decide (c ≤ t) && validFromB t ops

/-- Clocked store invariant: ids distinct and below the counter, creation
never after update, and no timestamp in the future of clock `c`. -/
def InvC (s : Store) (c : Nat) : Prop :=
  (idsOf s).Nodup ∧ FreshIds s ∧
  (∀ n ∈ s.notes, n.created_at ≤ n.updated_at) ∧
  (∀ n ∈ s.notes, n.updated_at ≤ c)

lemma idsOf_update (s : Store) (i : Nat) (ti co : String) (t : Nat) :
    idsOf (updateNote s i ti co t).2 = idsOf s := by
  show ((s.notes.map _).map Note.id) = s.notes.map Note.id
  rw [List.map_map]
  apply List.map_congr_left
  intro n _
  by_cases h : (n.id == i) = true
  · simp [Function.comp, h]
  · simp [Function.comp, h]

lemma InvC_insert {s : Store} {c : Nat} (h : InvC s c)
    (ti co : String) {t : Nat} (ht : c ≤ t) :
    InvC (insertNote s ti co t).2 t := by
  obtain ⟨h1, h2, h3, h4⟩ := h
  obtain ⟨h2b, h1b⟩ := insert_preserves s ti co t h2 h1
  refine ⟨h1b, h2b, ?_, ?_⟩
  · intro n hn
    simp only [insertNote, List.mem_append, List.mem_singleton] at hn
    rcases hn with hn | hn
    · exact h3 n hn
    · subst hn; exact Nat.le_refl t
  · intro n hn
    simp only [insertNote, List.mem_append, List.mem_singleton] at hn
    rcases hn with hn | hn
    · exact Nat.le_trans (h4 n hn) ht
    · subst hn; exact Nat.le_refl t

lemma InvC_update {s : Store} {c : Nat} (h : InvC s c)
    (i : Nat) (ti co : String) {t : Nat} (ht : c ≤ t) :
    InvC (updateNote s i ti co t).2 t := by
  obtain ⟨h1, h2, h3, h4⟩ := h
  refine ⟨by rw [idsOf_update]; exact h1, ?_, ?_, ?_⟩
  · intro m hm
    simp only [updateNote, List.mem_map] at hm
    obtain ⟨n, hn, hf⟩ := hm
    have hid : m.id = n.id := by
      subst hf
      by_cases hc : (n.id == i) = true
      · simp [hc]
      · simp [hc]
    show m.id < s.nextId
    rw [hid]
    exact h2 n hn
  · intro m hm
    simp only [updateNote, List.mem_map] at hm
    obtain ⟨n, hn, hf⟩ := hm
    subst hf
    by_cases hc : (n.id == i) = true
    · simp only [if_pos hc]
      exact Nat.le_trans (Nat.le_trans (h3 n hn) (h4 n hn)) ht
    · simp only [if_neg hc]
      exact h3 n hn
  · intro m hm
    simp only [updateNote, List.mem_map] at hm
    obtain ⟨n, hn, hf⟩ := hm
    subst hf
    by_cases hc : (n.id == i) = true
    · simp only [if_pos hc]
      exact Nat.le_refl t
    · simp only [if_neg hc]
      exact Nat.le_trans (h4 n hn) ht

lemma InvC_delete {s : Store} {c : Nat} (h : InvC s c) (i : Nat) :
    InvC (deleteNote s i) c := by
  obtain ⟨h1, h2, h3, h4⟩ := h
  have hsub : ∀ n ∈ (deleteNote s i).notes, n ∈ s.notes :=
    fun n hn => (List.mem_filter.1 hn).1
  exact ⟨(idsOf_delete_sublist s i).nodup h1,
    fun n hn => h2 n (hsub n hn),
    fun n hn => h3 n (hsub n hn),
    fun n hn => h4 n (hsub n hn)⟩

lemma runOps_inv : ∀ (ops : List Op) (s : Store) (c : Nat),
    InvC s c → validFromB c ops = true →
    ∃ c2, InvC (runOps s ops) c2 := by
  intro ops
  induction ops with
  | nil => intro s c h _; exact ⟨c, h⟩
  | cons op ops ih =>
    intro s c h hv
    cases op with
    | listAll => exact ih s c h hv
    | countAll => exact ih s c h hv
    | search q => exact ih s c h hv
    | insert ti co t =>
      simp only [validFromB, opTime, Bool.and_eq_true, decide_eq_true_eq] at hv
      exact ih _ t (InvC_insert h ti co hv.1) hv.2
    | update i ti co t =>
      simp only [validFromB, opTime, Bool.and_eq_true, decide_eq_true_eq] at hv
      exact ih _ t (InvC_update h i ti co hv.1) hv.2
    | delete i => exact ih _ c (InvC_delete h i) hv

/-- Ids handed out by the inserts of a trace, in order of assignment. -/
def assignedIds (s : Store) : List Op → List Nat
  | [] => []
  | op :: ops =>
    match op with
    | .insert _ _ _ => s.nextId :: assignedIds (applyOp s op) ops
    | _ => assignedIds (applyOp s op) ops

lemma nextId_mono (s : Store) (op : Op) : s.nextId ≤ (applyOp s op).nextId := by
  cases op with
  | insert ti co t => exact Nat.le_succ _
  | update i ti co t => exact Nat.le_refl _
  | delete i => exact Nat.le_refl _
  | listAll => exact Nat.le_refl _
  | countAll => exact Nat.le_refl _
  | search q => exact Nat.le_refl _

lemma assignedIds_lb : ∀ (ops : List Op) (s : Store),
    ∀ x ∈ assignedIds s ops, s.nextId ≤ x := by
  intro ops
  induction ops with
  | nil => intro s x hx; simp [assignedIds] at hx
  | cons op ops ih =>
    intro s x hx
    cases op with
    | insert ti co t =>
      simp only [assignedIds, List.mem_cons] at hx
      rcases hx with hx | hx
      · exact hx ▸ Nat.le_refl _
      · exact Nat.le_trans (nextId_mono s (.insert ti co t)) (ih _ x hx)
    | update i ti co t =>
      exact Nat.le_trans (nextId_mono s (.update i ti co t)) (ih _ x hx)
    | delete i =>
      exact Nat.le_trans (nextId_mono s (.delete i)) (ih _ x hx)
    | listAll => exact ih _ x hx
    | countAll => exact ih _ x hx
    | search q => exact ih _ x hx

lemma assignedIds_ascending : ∀ (ops : List Op) (s : Store),
    List.Pairwise (· < ·) (assignedIds s ops) := by
  intro ops
  induction ops with
  | nil => intro s; exact List.Pairwise.nil
  | cons op ops ih =>
    intro s
    cases op with
    | insert ti co t =>
      refine List.Pairwise.cons ?_ (ih _)
      intro x hx
      have := assignedIds_lb ops (applyOp s (.insert ti co t)) x hx
      show s.nextId < x
      have h2 : (applyOp s (.insert ti co t)).nextId = s.nextId + 1 := rfl
      omega
    | update i ti co t => exact ih _
    | delete i => exact ih _
    | listAll => exact ih _
    | countAll => exact ih _
    | search q => exact ih _

/-- C7: along any request trace with a non-decreasing clock, every
reachable store keeps ids distinct, keeps `created_at ≤ updated_at` on
every note, and the ids assigned by inserts are strictly increasing, so
an id is never reused or reassigned even after its note is deleted. -/
theorem store_invariants (ops : List Op) (h : validFromB 0 ops = true) :
    (idsOf (runOps emptyStore ops)).Nodup ∧
    (∀ n ∈ (runOps emptyStore ops).notes, n.created_at ≤ n.updated_at) ∧
    List.Pairwise (· < ·) (assignedIds emptyStore ops) := by
  have hinv : InvC emptyStore 0 := by
    refine ⟨by simp [idsOf, emptyStore], ?_, ?_, ?_⟩ <;>
      intro n hn <;> simp [emptyStore] at hn
  obtain ⟨c2, h1, -, h3, -⟩ := runOps_inv ops emptyStore 0 hinv h
  exact ⟨h1, h3, assignedIds_ascending ops emptyStore⟩

/-- A concrete trace: insert, update, delete, insert again. -/
def demoOps : List Op :=
  [.insert "a" "" 1, .update 1 "b" "c" 2, .delete 1, .insert "d" "" 3]

/-- C7 witness: the concrete trace keeps the invariants; its two inserts
assign the distinct ids 1 and 2. -/
theorem store_invariants_witness :
    validFromB 0 demoOps = true ∧
    ((idsOf (runOps emptyStore demoOps)).Nodup ∧
     (∀ n ∈ (runOps emptyStore demoOps).notes,
        n.created_at ≤ n.updated_at) ∧
     List.Pairwise (· < ·) (assignedIds emptyStore demoOps)) :=
  ⟨by decide, store_invariants demoOps (by decide)⟩

/-- The characters the JS regex class `\s` (and `String.prototype.trim`)
treats as whitespace. -/
def isJsWs (c : Char) : Bool :=
  c == ' ' || c == '\t' || c == '\n' || c == '\r' ||
  c == '\x0b' || c == '\x0c' ||
  c == '\u00A0' || c == '\u1680' ||
  ('\u2000' ≤ c && c ≤ '\u200A') ||
  c == '\u2028' || c == '\u2029' || c == '\u202F' ||
  c == '\u205F' || c == '\u3000' || c == '\uFEFF'

/-- `String.prototype.trim`: strip leading and trailing whitespace. -/
def trimChars (l : List Char) : List Char :=
  ((l.dropWhile isJsWs).reverse.dropWhile isJsWs).reverse

/-- Worker for `.replace(/\s+/g, " ")`: the flag records whether the
previous character was part of a whitespace run already replaced. -/
def collapseWsAux : Bool → List Char → List Char
  | _, [] => []
  | prevWs, c :: cs =>
    if isJsWs c then
      if prevWs then collapseWsAux true cs
      else ' ' :: collapseWsAux true cs
    else c :: collapseWsAux false cs

/-- `.replace(/\s+/g, " ")`: collapse every whitespace run to one space. -/
def collapseWs (l : List Char) : List Char := collapseWsAux false l

/-- JS `str.trim()` on a Lean string. -/
def jsTrim (s : String) : String := String.mk (trimChars s.data)

/-- JS `str.replace(/\s+/g, " ")` on a Lean string. -/
def jsCollapse (s : String) : String := String.mk (collapseWs s.data)

/-- Sidebar row title: `note.title.trim() || "New Memo"`. -/
def displayTitle (n : Note) : String :=
  if jsTrim n.title = "" then "New Memo" else jsTrim n.title

/-- `rawContent`: `note.content.replace(/\s+/g, " ").trim()`. -/
def rawPreview (n : Note) : String := jsTrim (jsCollapse n.content)

/-- `preview`: `rawContent.length > 60 ? rawContent.substring(0, 60) +
"..." : rawContent`. -/
def previewOf (n : Note) : String :=
  if 60 < (rawPreview n).length then
    String.mk ((rawPreview n).data.take 60) ++ "..."
  else rawPreview n

/-- Sidebar row preview: `escapeHtml(preview) || "No additional text"`;
`escapeHtml` yields the empty string exactly on the empty string, so the
fallback fires exactly when the preview is empty. -/
def displayPreview (n : Note) : String :=
  if previewOf n = "" then "No additional text" else previewOf n

/-- The preview as the spec words it: the fallback literal when the
collapsed-and-trimmed content is empty, else that text truncated to its
first 60 characters with an ellipsis when longer than 60. -/
def specPreview (n : Note) : String :=
  if jsTrim (jsCollapse n.content) = "" then "No additional text"
  else if 60 < (jsTrim (jsCollapse n.content)).length then
    String.mk ((jsTrim (jsCollapse n.content)).data.take 60) ++ "..."
  else jsTrim (jsCollapse n.content)

/-- C9: each sidebar row shows the trimmed title, falling back to the
literal `"New Memo"` when the trimmed title is empty (the stored title
staying untouched), and shows the preview exactly as the spec describes
it: collapsed and trimmed content, truncated to 60 characters plus an
ellipsis when longer, with the `"No additional text"` fallback exactly
when empty. -/
theorem sidebar_row (n : Note) :
    displayTitle n =
      (if jsTrim n.title = "" then "New Memo" else jsTrim n.title) ∧
    (n.title = "" → displayTitle n = "New Memo" ∧ n.title = "") ∧
    displayPreview n = specPreview n := by
  refine ⟨rfl, ?_, ?_⟩
  · intro h0
    refine ⟨?_, h0⟩
    rw [displayTitle, h0]
    rfl
  · unfold displayPreview previewOf specPreview rawPreview
    by_cases h0 : jsTrim (jsCollapse n.content) = ""
    · rw [h0]
      simp
    · by_cases h60 : 60 < (jsTrim (jsCollapse n.content)).length
      · have hne : String.mk ((jsTrim (jsCollapse n.content)).data.take 60)
            ++ "..." ≠ "" := by
          intro hcontra
          have hdata := congrArg String.data hcontra
          rw [String.data_append] at hdata
          simp at hdata
        rw [if_pos h60, if_neg h0, if_neg hne]
      · rw [if_neg h60, if_neg h0]

/-- A note with a blank title and a long, whitespace-ridden body. -/
def demoRowNote : Note :=
  { id := 7, title := "",
    content := "  line one\n\nline  two with\ta very long tail " ++
      "abcdefghijklmnopqrstuvwxyz0123456789", created_at := 0,
    updated_at := 0 }

/-- C9 witness: the blank-titled note renders as `"New Memo"` while its
stored title stays empty. -/
theorem sidebar_row_witness :
    demoRowNote.title = "" ∧
    (displayTitle demoRowNote = "New Memo" ∧ demoRowNote.title = "") :=
  ⟨rfl, (sidebar_row demoRowNote).2.1 rfl⟩

/-- A two-note store used to exercise the search-variant loader. -/
def demoLoadStore : Store :=
  { notes :=
      [{ id := 1, title := "alpha", content := "one",
         created_at := 0, updated_at := 0 },
       { id := 2, title := "beta", content := "two",
         created_at := 1, updated_at := 1 }],
    nextId := 3 }

/-- The search-enabled sidebar's `loadNotes`: pick list-all or search by
the trimmed query, re-sort client-side by `updated_at` descending, render
that list, and set the stats line from the `getStats` request. The pair is
(rendered list, stats total). -/
def loadNotes (s : Store) (searchInput : String) : List Note × Nat :=
  let query := jsTrim searchInput
  let notes := if query = "" then getAllNotes s else searchNotesReq s query
  (notes.insertionSort updatedDesc, getStatsReq s)

/-- C10: the stats line always shows the full store count — for the plain
and for the filtering load alike — so a narrowing search leaves the
displayed count at the store total, as the concrete mismatch shows. -/
theorem stats_ignore_search :
    (∀ (s : Store) (q : String), (loadNotes s q).2 = s.notes.length) ∧
    (loadNotes demoLoadStore "zzz").1.length = 0 ∧
    (loadNotes demoLoadStore "zzz").2 = 2 := by
  refine ⟨fun s q => rfl, ?_, rfl⟩
  rfl

end NoteApp
